import Mathlib

set_option maxRecDepth 8000

namespace SES

/-!
Verification of `src/bundle/dataPropertiesToRepair.js`.

The source file exports a single declarative policy table, an object
literal whose leaves are the boolean `true`, the string `"*"`, or nested
object literals.  We embed JavaScript-like values as the inductive type
`JsVal` below and translate the exported literal field by field, in
source order, as `dataPropertiesToRepair`.

The repair engine that consumes such a table is described by the design
document but its code is not part of this repository snapshot; it is
modelled later in this file from the design document (see `repairProp`,
`expandWildcard`, `planMap`, `runRepair`).
-/

mutual
/-- A JavaScript-like value: an object (record of named fields), a
boolean, a string, an integer number, `null`, `undefined`, or an array.
This is rich enough to express shapes the policy table does not use
(numbers, arbitrary strings, arrays), so shape claims about the table
are not vacuous. -/
inductive JsVal : Type where
  | jobj (fields : JsFields)
  | jbool (b : Bool)
  | jstr (s : String)
  | jnum (n : Int)
  | jnull
  | jundefined
  | jarr (elems : JsElems)

/-- Ordered association list of fields of a JavaScript object literal. -/
inductive JsFields : Type where
  | nil
  | cons (k : String) (v : JsVal) (rest : JsFields)

/-- Ordered elements of a JavaScript array literal. -/
inductive JsElems : Type where
  | nil
  | cons (v : JsVal) (rest : JsElems)
end

/-- Build a `JsFields` association list from a Lean list, preserving
order, so the table below can be written in a shape that mirrors the
JavaScript object literal. -/
def fieldsOf : List (String × JsVal) → JsFields
  | [] => .nil
  | (k, v) :: rest => .cons k v (fieldsOf rest)

/-- Object literal constructor. -/
def jrec (l : List (String × JsVal)) : JsVal :=
  .jobj (fieldsOf l)

/-- The source factors the boolean `true` out as `const t = true`. -/
def t : JsVal := .jbool true

/-- The default export of `src/bundle/dataPropertiesToRepair.js`,
translated field by field in source order. -/
def dataPropertiesToRepair : JsVal :=
  jrec [
    ("namedIntrinsics", jrec [
      ("Object", jrec [("prototype", .jstr "*")]),
      ("Array", jrec [("prototype", .jstr "*")]),
      ("Function", jrec [("prototype", jrec [
        ("constructor", t), ("bind", t), ("name", t), ("toString", t)])]),
      ("Error", jrec [("prototype", jrec [
        ("constructor", t), ("message", t), ("name", t), ("toString", t)])]),
      ("TypeError", jrec [("prototype", jrec [
        ("constructor", t), ("name", t)])]),
      ("Promise", jrec [("prototype", jrec [
        ("constructor", t)])])]),
    ("anonIntrinsics", jrec [
      ("TypedArray", jrec [("prototype", .jstr "*")]),
      ("GeneratorFunction", jrec [("prototype", jrec [
        ("constructor", t), ("name", t), ("toString", t)])]),
      ("AsyncFunction", jrec [("prototype", jrec [
        ("constructor", t), ("name", t), ("toString", t)])]),
      ("AsyncGeneratorFunction", jrec [("prototype", jrec [
        ("constructor", t), ("name", t), ("toString", t)])]),
      ("IteratorPrototype", .jstr "*")])]

/-- A value is falsy in the JavaScript sense: `false`, `null`,
`undefined`, `0`, or the empty string. -/
def isFalsy : JsVal → Bool
  | .jbool false => true
  | .jnull => true
  | .jundefined => true
  | .jnum n => n == 0
  | .jstr s => s == ""
  | _ => false

mutual
/-- Decides whether every value reachable in a tree is one of the four
policy shapes: a nested record of policy shapes, the boolean `true`,
the wildcard string `"*"`, or a falsy value. -/
def isPolicyShape : JsVal → Bool
  | .jobj fs => fieldsPolicyShape fs
  | .jbool _ => true
  | .jstr s => s == "*" || s == ""
  | .jnum n => n == 0
  | .jnull => true
  | .jundefined => true
  | .jarr _ => false

/-- Pointwise `isPolicyShape` over the fields of a record. -/
def fieldsPolicyShape : JsFields → Bool
  | .nil => true
  | .cons _ v rest => isPolicyShape v && fieldsPolicyShape rest
end

mutual
/-- All leaves of a tree, each paired with the path of keys that
reaches it from the root.  A leaf is any non-record value. -/
def leafPaths : JsVal → List (List String × JsVal)
  | .jobj fs => fieldsLeafPaths fs
  | v => [([], v)]

/-- Leaf enumeration over the fields of a record. -/
def fieldsLeafPaths : JsFields → List (List String × JsVal)
  | .nil => []
  | .cons k v rest =>
    (leafPaths v).map (fun p => (k :: p.1, p.2)) ++ fieldsLeafPaths rest
end

/-- Keys of the fields of a record. -/
def fieldKeys : JsFields → List String
  | .nil => []
  | .cons k _ rest => k :: fieldKeys rest

/-- Top-level keys of a value; a non-record has none. -/
def keysOf : JsVal → List String
  | .jobj fs => fieldKeys fs
  | _ => []

/-- First field with the given key, if any. -/
def getField : JsFields → String → Option JsVal
  | .nil, _ => none
  | .cons k v rest, key => if k == key then some v else getField rest key

/-- Property access on a record value. -/
def getKey : JsVal → String → Option JsVal
  | .jobj fs, key => getField fs key
  | _, _ => none

/-- Follow a path of keys from a value. -/
def lookupPath : JsVal → List String → Option JsVal
  | v, [] => some v
  | v, k :: rest =>
    match getKey v k with
    | some v2 => lookupPath v2 rest
    | none => none

/-- Recognizes the repair leaf, the boolean `true`. -/
def isTrueLeaf : JsVal → Bool
  | .jbool true => true
  | _ => false

/-- Recognizes the wildcard leaf, the string `"*"`. -/
def isWildcardLeaf : JsVal → Bool
  | .jstr s => s == "*"
  | _ => false

/-- Decides whether an optional value is a record all of whose field
values are policy shapes. -/
def isRecordOfPolicyNodes : Option JsVal → Bool
  | some (.jobj fs) => fieldsPolicyShape fs
  | _ => false

/-- Modelled from the spec: the standard error subtypes of the language
runtime (the constructors that specialize `Error`), used to read the
claim phrase "the error subtypes" precisely. -/
def errorSubtypeNames : List String :=
  ["EvalError", "RangeError", "ReferenceError", "SyntaxError",
   "TypeError", "URIError"]

/-- The key set claim C5 asserts for the `namedIntrinsics` category,
assembled from the words of the claim: `Object`, `Array`, `Function`,
`Error`, the error subtypes, and `Promise`. -/
def claimedNamedIntrinsicKeys : List String :=
  ["Object", "Array", "Function", "Error"] ++ errorSubtypeNames ++ ["Promise"]

/-- Modelled from the spec: intrinsics reachable by name from the
global object that are relevant here (each of these is a standard
global binding of the language runtime). -/
def globalBindingNames : List String :=
  ["Object", "Array", "Function", "Error", "EvalError", "RangeError",
   "ReferenceError", "SyntaxError", "TypeError", "URIError", "Promise"]

/-- Modelled from the spec: the intrinsics with no named global
binding, which the caller must resolve by other means. -/
def anonIntrinsicNames : List String :=
  ["TypedArray", "GeneratorFunction", "AsyncFunction",
   "AsyncGeneratorFunction", "IteratorPrototype"]

/-- The `namedIntrinsics` category of the exported table. -/
def namedIntrinsicsPart : JsVal :=
  (getKey dataPropertiesToRepair "namedIntrinsics").getD .jundefined

/-- The `anonIntrinsics` category of the exported table. -/
def anonIntrinsicsPart : JsVal :=
  (getKey dataPropertiesToRepair "anonIntrinsics").getD .jundefined

/-!
The repair engine.  The code of the engine is not part of this
repository snapshot (only the policy table it consumes is), so the
engine below is modelled from the design document: PropertyRepairer
(section 4.1), WildcardExpander (section 4.2) and RepairPlanner
(section 4.3), together with the data model of section 3.

Shallow-embedding choices, stated once here:
* property keys are strings (symbol keys are identified with string
  keys);
* an accessor property is represented by the value its getter returns
  when the receiver holds no own shadow value — for the accessors the
  repairer installs this is exactly the captured original default, and
  the engine itself never triggers a setter, so this determines every
  lookup the engine performs;
* object identity is a natural number indexing into an explicit heap.
-/

/-- Runtime value: undefined, a boolean, a string, or a reference to a
heap object. -/
inductive Value : Type where
  | vundefined
  | vbool (b : Bool)
  | vstr (s : String)
  | vobj (o : Nat)
deriving DecidableEq

/-- Property descriptor: a data property carries its value and the
writable, enumerable and configurable attributes; an accessor property
carries the value its getter yields when no own shadow value exists,
plus the enumerable and configurable attributes. -/
inductive Descriptor : Type where
  | dataD (v : Value) (writable enumerable configurable : Bool)
  | accessorD (get : Value) (enumerable configurable : Bool)
deriving DecidableEq

/-- Value observed when reading a property through its descriptor. -/
def descGet : Descriptor → Value
  | .dataD v _ _ _ => v
  | .accessorD g _ _ => g

/-- Heap object: an optional prototype link and an ordered list of own
properties. -/
structure ObjRec : Type where
  proto : Option Nat
  props : List (String × Descriptor)
deriving DecidableEq

/-- Heap: association list from object identity to object record. -/
abbrev Heap := List (Nat × ObjRec)

/-- First heap entry with the given identity. -/
def hGetObj : Heap → Nat → Option ObjRec
  | [], _ => none
  | (o2, r) :: rest, o => if o2 = o then some r else hGetObj rest o

/-- First property with the given key. -/
def getProp : List (String × Descriptor) → String → Option Descriptor
  | [], _ => none
  | (k2, d) :: rest, k => if k2 = k then some d else getProp rest k

/-- Own property descriptor of an object. -/
def hGetOwn (h : Heap) (o : Nat) (k : String) : Option Descriptor :=
  match hGetObj h o with
  | some r => getProp r.props k
  | none => none

/-- Observable read of an own property (the value of a data property,
or the getter result of an accessor). -/
def obs (h : Heap) (o : Nat) (k : String) : Option Value :=
  (hGetOwn h o k).map descGet

/-- Own property keys of an object, in definition order. -/
def ownKeys (h : Heap) (o : Nat) : List String :=
  match hGetObj h o with
  | some r => r.props.map Prod.fst
  | none => []

/-- Prototype link of an object, when the object exists. -/
def protoOf (h : Heap) (o : Nat) : Option (Option Nat) :=
  (hGetObj h o).map ObjRec.proto

/-- Replace the first property with the given key, leaving the list
unchanged when the key is absent. -/
def setProp : List (String × Descriptor) → String → Descriptor →
    List (String × Descriptor)
  | [], _, _ => []
  | (k2, d2) :: rest, k, d =>
    if k2 = k then (k2, d) :: rest else (k2, d2) :: setProp rest k d

/-- Replace an own property descriptor in the heap. -/
def hSetOwn : Heap → Nat → String → Descriptor → Heap
  | [], _, _, _ => []
  | (o2, r) :: rest, o, k, d =>
    if o2 = o then (o2, { r with props := setProp r.props k d }) :: rest
    else (o2, r) :: hSetOwn rest o k d

/-- Ordinary property access: read the own property, else follow the
prototype chain; the fuel argument bounds the chain walk and is
instantiated with the heap size. -/
def lookupValFuel : Nat → Heap → Nat → String → Value
  | 0, _, _, _ => .vundefined
  | fuel + 1, h, o, k =>
    match obs h o k with
    | some v => v
    | none =>
      match protoOf h o with
      | some (some p) => lookupValFuel fuel h p k
      | _ => .vundefined

/-- Ordinary property access with the standard fuel. -/
def lookupVal (h : Heap) (o : Nat) (k : String) : Value :=
  lookupValFuel h.length h o k

/-- Repair outcome of one attempted repair (section 3, RepairOutcome). -/
inductive Res : Type where
  | repaired
  | alreadyAccessor
  | propertyAbsent
  | nonConfigurable
  | rootAbsent
deriving DecidableEq

/-- Modelled from the spec, section 4.1 (PropertyRepairer): no own
property gives `propertyAbsent`; an accessor is left alone; a
non-configurable data property cannot be redefined; a configurable
data property is replaced by an accessor pair whose getter returns the
captured original value, keeping the original enumerability and
staying configurable. -/
def repairProp (h : Heap) (o : Nat) (k : String) : Heap × Res :=
  match hGetOwn h o k with
  | none => (h, .propertyAbsent)
  | some (.accessorD _ _ _) => (h, .alreadyAccessor)
  | some (.dataD v _ e c) =>
    if c then (hSetOwn h o k (.accessorD v e true), .repaired)
    else (h, .nonConfigurable)

/-- Repair each key of a snapshot in order, threading the heap and
collecting one outcome per key. -/
def repairKeys (h : Heap) (o : Nat) (ks : List String)
    (path : List String) : Heap × List (List String × Res) :=
  match ks with
  | [] => (h, [])
  | k :: rest =>
    let hr := repairProp h o k
    let tl := repairKeys hr.1 o rest path
    (tl.1, (path ++ [k], hr.2) :: tl.2)

/-- Traversal state: the heap being repaired, the wildcard visited set,
the subtree recursion visited set (object identity paired with the
policy path, which identifies the policy node inside the finite policy
tree), and the accumulated outcomes.  Created fresh per top-level
invocation (section 3, VisitGuard). -/
structure RS : Type where
  heap : Heap
  wvis : List Nat
  svis : List (Nat × List String)
  outs : List (List String × Res)
deriving DecidableEq

/-- Modelled from the spec, section 4.2 (WildcardExpander): skip an
object already expanded, otherwise snapshot its own keys once, repair
each, and record the object as expanded. -/
def expandWildcard (s : RS) (o : Nat) (path : List String) : RS :=
  if o ∈ s.wvis then s
  else
    let hr := repairKeys s.heap o (ownKeys s.heap o) path
    { heap := hr.1, wvis := o :: s.wvis, svis := s.svis,
      outs := s.outs ++ hr.2 }

mutual
/-- A policy tree node (section 3, PolicyNode): a subtree of named
children, the repair leaf, the wildcard leaf, or skip. -/
inductive PolicyNode : Type where
  | subtree (m : PolicyMap)
  | repairLeaf
  | wildcardLeaf
  | skip

/-- Ordered named children of a subtree node. -/
inductive PolicyMap : Type where
  | nil
  | cons (k : String) (v : PolicyNode) (rest : PolicyMap)
end

mutual
/-- Interpretation of a policy table value as a policy node: records
recurse, `true` is the repair leaf, `"*"` the wildcard leaf, and any
falsy or unrecognized value is skip (section 7: an unrecognized policy
leaf value is treated as skip). -/
def toPolicy : JsVal → PolicyNode
  | .jobj fs => .subtree (toPolicyMap fs)
  | .jbool true => .repairLeaf
  | .jstr s => if s = "*" then .wildcardLeaf else .skip
  | _ => .skip

/-- Pointwise interpretation of record fields. -/
def toPolicyMap : JsFields → PolicyMap
  | .nil => .nil
  | .cons k v rest => .cons k (toPolicy v) (toPolicyMap rest)
end

mutual
/-- Modelled from the spec, section 4.3 (RepairPlanner), the handling
of one child entry `k` of a subtree node matched against owner object
`o`: a repair leaf repairs `(o, k)` itself (the leaf is reached one
level up); a wildcard leaf expands the property value, reporting
`rootAbsent` when it is not an object; a subtree recurses into the
property value when it is an object and the (object identity, policy
node) pair is new, skipping silently on a revisit; skip does
nothing. -/
def planNode (s : RS) (o : Nat) (k : String) (node : PolicyNode)
    (path : List String) : RS :=
  match node with
  | .skip => s
  | .repairLeaf =>
    let hr := repairProp s.heap o k
    { s with heap := hr.1, outs := s.outs ++ [(path ++ [k], hr.2)] }
  | .wildcardLeaf =>
    match lookupVal s.heap o k with
    | .vobj o2 => expandWildcard s o2 (path ++ [k])
    | _ => { s with outs := s.outs ++ [(path ++ [k], Res.rootAbsent)] }
  | .subtree m2 =>
    match lookupVal s.heap o k with
    | .vobj o2 =>
      if (o2, path ++ [k]) ∈ s.svis then s
      else planMap { s with svis := (o2, path ++ [k]) :: s.svis }
        o2 m2 (path ++ [k])
    | _ => { s with outs := s.outs ++ [(path ++ [k], Res.rootAbsent)] }

/-- Iterate the children of a subtree node in order against owner
object `o` (section 4.3, the Subtree case). -/
def planMap (s : RS) (o : Nat) (m : PolicyMap) (path : List String) : RS :=
  match m with
  | .nil => s
  | .cons k child rest => planMap (planNode s o k child path) o rest path
end

/-- Root mapping (section 3, RootMapping): top-level category name to a
mapping from intrinsic name to the resolved runtime value; entries may
be missing. -/
abbrev RootMapping := List (String × List (String × Value))

/-- First entry of an association list with the given key. -/
def assocLookup {α : Type} : List (String × α) → String → Option α
  | [], _ => none
  | (k2, a) :: rest, k => if k2 = k then some a else assocLookup rest k

/-- Modelled from the spec, top-level handling of one intrinsic entry:
the resolved value comes from the root mapping (a missing entry
behaves as `undefined`); a subtree or wildcard against a non-object
reports `rootAbsent`; a repair leaf directly under a category is not
given a meaning by the design document and is treated as skip. -/
def runIntr (s : RS) (cname iname : String) (node : PolicyNode)
    (v : Value) : RS :=
  match node with
  | .skip => s
  | .repairLeaf => s
  | .wildcardLeaf =>
    match v with
    | .vobj o => expandWildcard s o [cname, iname]
    | _ => { s with outs := s.outs ++ [([cname, iname], Res.rootAbsent)] }
  | .subtree m2 =>
    match v with
    | .vobj o =>
      if (o, [cname, iname]) ∈ s.svis then s
      else planMap { s with svis := (o, [cname, iname]) :: s.svis }
        o m2 [cname, iname]
    | _ => { s with outs := s.outs ++ [([cname, iname], Res.rootAbsent)] }

/-- Iterate the intrinsic entries of one category in order. -/
def runIntrs (s : RS) (cname : String) (m : PolicyMap)
    (rm : List (String × Value)) : RS :=
  match m with
  | .nil => s
  | .cons iname node rest =>
    runIntrs (runIntr s cname iname node ((assocLookup rm iname).getD .vundefined))
      cname rest rm

/-- Iterate the top-level categories of the policy tree in order; a
category whose policy is not a record is skipped. -/
def runCats (s : RS) (cats : PolicyMap) (roots : RootMapping) : RS :=
  match cats with
  | .nil => s
  | .cons cname cpol rest =>
    let s2 :=
      match cpol with
      | .subtree intrs => runIntrs s cname intrs ((assocLookup roots cname).getD [])
      | _ => s
    runCats s2 rest roots

/-- Fresh traversal state over a heap: empty visited sets and no
outcomes yet (section 3, VisitGuard lifecycle). -/
def initRS (h : Heap) : RS :=
  { heap := h, wvis := [], svis := [], outs := [] }

/-- Modelled from the spec, sections 4.3 and 6 (engine entry point):
run the repair pass over the policy tree against the root mapping with
fresh visited sets, returning the final heap and the combined outcome
list. -/
def runRepair (h : Heap) (p : PolicyNode) (roots : RootMapping) :
    Heap × List (List String × Res) :=
  match p with
  | .subtree cats =>
    let s := runCats (initRS h) cats roots
    (s.heap, s.outs)
  | _ => (h, [])

/-- Demonstration heap for C4: object 0 is an `Error`-like constructor
whose `prototype` property refers to object 1, whose own `message` is
the writable, non-enumerable, configurable data property `""`. -/
def errDemoHeap : Heap :=
  [(0, { proto := none,
         props := [("prototype", .dataD (.vobj 1) false false false)] }),
   (1, { proto := none,
         props := [("message", .dataD (.vstr "") true false true)] })]

/-- Root mapping for C4 resolving only the `Error` intrinsic. -/
def errDemoRoots : RootMapping :=
  [("namedIntrinsics", [("Error", .vobj 0)])]

/-- Counterexample heap for C7: one object whose property `x` is a
non-configurable data property. -/
def ceHeap : Heap :=
  [(0, { proto := none, props := [("x", .dataD (.vstr "v") true true false)] })]

/-- Counterexample policy for C7: repair property `x` of intrinsic `O`. -/
def cePolicy : PolicyNode :=
  .subtree (.cons "namedIntrinsics"
    (.subtree (.cons "O" (.subtree (.cons "x" .repairLeaf .nil)) .nil)) .nil)

/-- Counterexample root mapping for C7. -/
def ceRoots : RootMapping := [("namedIntrinsics", [("O", .vobj 0)])]

/-- Observational equivalence of heaps: same size and pointwise the
same prototype links, own key lists, and observable property reads.
Replacing a data property by an accessor that yields the captured
value moves along this relation, so a second run of the pass reads
exactly what the first run read. -/
def ObsEquiv (h h2 : Heap) : Prop :=
  h.length = h2.length ∧
  (∀ o, protoOf h o = protoOf h2 o) ∧
  (∀ o, ownKeys h o = ownKeys h2 o) ∧
  (∀ o k, obs h o k = obs h2 o k)

/-- A property position on which the repairer is a no-op: the position
does not hold a configurable data property (it is absent, an accessor,
or non-configurable). -/
def unrep (h : Heap) (o : Nat) (k : String) : Prop :=
  ∀ v w e, hGetOwn h o k = some (.dataD v w e true) → False

/-- One heap evolves into another along the repair pass: observations
agree and no-op positions stay no-op positions. -/
def Evolves (h h2 : Heap) : Prop :=
  ObsEquiv h h2 ∧ ∀ a b, unrep h a b → unrep h2 a b

/-- Relation between one step of a first run (from state `s1` to `r1`)
and the corresponding step of a second run (from `s2` to `r2`): the
second run leaves its heap untouched, mirrors the visited sets of the
first run, and only appends outcomes that are not `repaired`. -/
def StepOK (s2 r1 r2 : RS) : Prop :=
  r2.heap = s2.heap ∧ r2.wvis = r1.wvis ∧ r2.svis = r1.svis ∧
  ∃ extra, r2.outs = s2.outs ++ extra ∧ ∀ e ∈ extra, e.2 ≠ Res.repaired

/-!
Lemmas about the heap primitives, leading to the idempotence of the
repair pass (claim C7).
-/

theorem getProp_setProp_self (k : String) (d : Descriptor) :
    ∀ ps : List (String × Descriptor),
      getProp (setProp ps k d) k = (getProp ps k).map (fun _ => d)
  | [] => rfl
  | (k2, d2) :: rest => by
    by_cases hk : k2 = k <;>
      simp [setProp, getProp, hk, getProp_setProp_self k d rest]

theorem getProp_setProp_ne (k k2 : String) (d : Descriptor) (hne : k2 ≠ k) :
    ∀ ps : List (String × Descriptor),
      getProp (setProp ps k d) k2 = getProp ps k2
  | [] => rfl
  | (k3, d3) :: rest => by
    have hkk : ¬k = k2 := fun h => hne h.symm
    by_cases h3 : k3 = k
    · have h32 : ¬k3 = k2 := fun h => hne (h.symm.trans h3)
      simp [setProp, getProp, h3, h32, hkk]
    · by_cases h32 : k3 = k2 <;>
        simp [setProp, getProp, h3, h32, hkk, hne,
          getProp_setProp_ne k k2 d hne rest]

theorem setProp_keys (k : String) (d : Descriptor) :
    ∀ ps : List (String × Descriptor),
      (setProp ps k d).map Prod.fst = ps.map Prod.fst
  | [] => rfl
  | (k2, d2) :: rest => by
    by_cases hk : k2 = k <;> simp [setProp, hk, setProp_keys k d rest]

theorem length_hSetOwn (o : Nat) (k : String) (d : Descriptor) :
    ∀ h : Heap, (hSetOwn h o k d).length = h.length
  | [] => rfl
  | (o2, r) :: rest => by
    by_cases ho : o2 = o <;> simp [hSetOwn, ho, length_hSetOwn o k d rest]

theorem hGetObj_hSetOwn (o o2 : Nat) (k : String) (d : Descriptor) :
    ∀ h : Heap,
      hGetObj (hSetOwn h o k d) o2 =
        if o2 = o then
          (hGetObj h o2).map (fun r => { r with props := setProp r.props k d })
        else hGetObj h o2
  | [] => by by_cases ho : o2 = o <;> simp [hSetOwn, hGetObj, ho]
  | (o3, r) :: rest => by
    by_cases h3 : o3 = o
    · by_cases h32 : o2 = o
      · have h23 : o3 = o2 := h3.trans h32.symm
        simp [hSetOwn, hGetObj, h3, h32, h23]
      · have h23 : ¬o3 = o2 := fun h => h32 (h.symm.trans h3)
        have hoo : ¬o = o2 := fun h => h23 (h3.trans h)
        simp [hSetOwn, hGetObj, h3, h32, h23, hoo]
    · by_cases h32 : o3 = o2
      · have ho2 : ¬o2 = o := fun h => h3 (h32.trans h)
        simp [hSetOwn, hGetObj, h3, h32, ho2]
      · simp [hSetOwn, hGetObj, h3, h32, hGetObj_hSetOwn o o2 k d rest]

theorem protoOf_hSetOwn (h : Heap) (o o2 : Nat) (k : String) (d : Descriptor) :
    protoOf (hSetOwn h o k d) o2 = protoOf h o2 := by
  unfold protoOf
  rw [hGetObj_hSetOwn]
  by_cases ho : o2 = o <;> cases hGetObj h o2 <;> simp [ho]

theorem ownKeys_hSetOwn (h : Heap) (o o2 : Nat) (k : String) (d : Descriptor) :
    ownKeys (hSetOwn h o k d) o2 = ownKeys h o2 := by
  unfold ownKeys
  rw [hGetObj_hSetOwn]
  by_cases ho : o2 = o <;> cases hGetObj h o2 <;> simp [ho, setProp_keys]

theorem hGetOwn_hSetOwn_self (h : Heap) (o : Nat) (k : String) (d : Descriptor) :
    hGetOwn (hSetOwn h o k d) o k = (hGetOwn h o k).map (fun _ => d) := by
  unfold hGetOwn
  rw [hGetObj_hSetOwn]
  cases hGetObj h o <;> simp [getProp_setProp_self]

theorem hGetOwn_hSetOwn_ne (h : Heap) (o o2 : Nat) (k k2 : String)
    (d : Descriptor) (hne : ¬(o2 = o ∧ k2 = k)) :
    hGetOwn (hSetOwn h o k d) o2 k2 = hGetOwn h o2 k2 := by
  unfold hGetOwn
  rw [hGetObj_hSetOwn]
  by_cases ho : o2 = o
  · have hk : k2 ≠ k := fun hk => hne ⟨ho, hk⟩
    cases hGetObj h o2 <;> simp [ho, getProp_setProp_ne k k2 d hk]
  · simp [ho]

theorem repairProp_fst (h : Heap) (o : Nat) (k : String) :
    ((repairProp h o k).1 = h ∧ unrep h o k ∧
      (repairProp h o k).2 ≠ Res.repaired) ∨
    ∃ v w e, hGetOwn h o k = some (.dataD v w e true) ∧
      (repairProp h o k).1 = hSetOwn h o k (.accessorD v e true) ∧
      (repairProp h o k).2 = Res.repaired := by
  cases hd : hGetOwn h o k with
  | none => exact Or.inl (by simp [repairProp, unrep, hd])
  | some d =>
    cases d with
    | accessorD g e c => exact Or.inl (by simp [repairProp, unrep, hd])
    | dataD v w e c =>
      cases c with
      | false => exact Or.inl (by simp [repairProp, unrep, hd])
      | true =>
        exact Or.inr ⟨v, w, e, rfl, by simp [repairProp, hd], by simp [repairProp, hd]⟩

theorem repairProp_noop (h : Heap) (o : Nat) (k : String) (hu : unrep h o k) :
    (repairProp h o k).1 = h ∧ (repairProp h o k).2 ≠ Res.repaired := by
  rcases repairProp_fst h o k with ⟨h1, _, h3⟩ | ⟨v, w, e, hd, _, _⟩
  · exact ⟨h1, h3⟩
  · exact (hu v w e hd).elim

theorem repairProp_post (h : Heap) (o : Nat) (k : String) :
    unrep (repairProp h o k).1 o k := by
  rcases repairProp_fst h o k with ⟨h1, h2, _⟩ | ⟨v, w, e, hd, hset, _⟩
  · rw [h1]; exact h2
  · rw [hset]
    intro v2 w2 e2 heq
    rw [hGetOwn_hSetOwn_self, hd] at heq
    simp at heq

theorem repairProp_mono (h : Heap) (o : Nat) (k : String) (a : Nat) (b : String)
    (hu : unrep h a b) : unrep (repairProp h o k).1 a b := by
  rcases repairProp_fst h o k with ⟨h1, _, _⟩ | ⟨v, w, e, hd, hset, _⟩
  · rw [h1]; exact hu
  · rw [hset]
    by_cases hab : a = o ∧ b = k
    · rw [hab.1, hab.2]
      intro v2 w2 e2 heq
      rw [hGetOwn_hSetOwn_self, hd] at heq
      simp at heq
    · intro v2 w2 e2 heq
      rw [hGetOwn_hSetOwn_ne h o a k b _ hab] at heq
      exact hu v2 w2 e2 heq

theorem obsEquiv_refl (h : Heap) : ObsEquiv h h :=
  ⟨rfl, fun _ => rfl, fun _ => rfl, fun _ _ => rfl⟩

theorem obsEquiv_symm {h h2 : Heap} (he : ObsEquiv h h2) : ObsEquiv h2 h :=
  ⟨he.1.symm, fun o => (he.2.1 o).symm, fun o => (he.2.2.1 o).symm,
    fun o k => (he.2.2.2 o k).symm⟩

theorem obsEquiv_trans {h h2 h3 : Heap} (ha : ObsEquiv h h2)
    (hb : ObsEquiv h2 h3) : ObsEquiv h h3 :=
  ⟨ha.1.trans hb.1, fun o => (ha.2.1 o).trans (hb.2.1 o),
    fun o => (ha.2.2.1 o).trans (hb.2.2.1 o),
    fun o k => (ha.2.2.2 o k).trans (hb.2.2.2 o k)⟩

theorem repairProp_obsEquiv (h : Heap) (o : Nat) (k : String) :
    ObsEquiv h (repairProp h o k).1 := by
  rcases repairProp_fst h o k with ⟨h1, _, _⟩ | ⟨v, w, e, hd, hset, _⟩
  · rw [h1]; exact obsEquiv_refl h
  · rw [hset]
    refine ⟨(length_hSetOwn o k _ h).symm,
      fun a => (protoOf_hSetOwn h o a k _).symm,
      fun a => (ownKeys_hSetOwn h o a k _).symm, fun a b => ?_⟩
    by_cases hab : a = o ∧ b = k
    · rw [hab.1, hab.2]
      unfold obs
      rw [hGetOwn_hSetOwn_self, hd]
      rfl
    · unfold obs
      rw [hGetOwn_hSetOwn_ne h o a k b _ hab]

theorem evolves_refl (h : Heap) : Evolves h h :=
  ⟨obsEquiv_refl h, fun _ _ hu => hu⟩

theorem evolves_trans {h h2 h3 : Heap} (ha : Evolves h h2)
    (hb : Evolves h2 h3) : Evolves h h3 :=
  ⟨obsEquiv_trans ha.1 hb.1, fun a b hu => hb.2 a b (ha.2 a b hu)⟩

theorem repairProp_evolves (h : Heap) (o : Nat) (k : String) :
    Evolves h (repairProp h o k).1 :=
  ⟨repairProp_obsEquiv h o k, fun a b => repairProp_mono h o k a b⟩

theorem lookupValFuel_congr {h h2 : Heap} (he : ObsEquiv h h2) (n : Nat) :
    ∀ (o : Nat) (k : String), lookupValFuel n h o k = lookupValFuel n h2 o k := by
  induction n with
  | zero => intro o k; rfl
  | succ n ih =>
    intro o k
    simp only [lookupValFuel]
    rw [he.2.2.2 o k, he.2.1 o]
    cases obs h2 o k with
    | some v => rfl
    | none =>
      cases protoOf h2 o with
      | none => rfl
      | some po =>
        cases po with
        | none => rfl
        | some p => exact ih p k

theorem lookupVal_congr {h h2 : Heap} (he : ObsEquiv h h2) (o : Nat)
    (k : String) : lookupVal h o k = lookupVal h2 o k := by
  unfold lookupVal
  rw [he.1]
  exact lookupValFuel_congr he h2.length o k

theorem repairKeys_evolves (o : Nat) (path : List String) :
    ∀ (ks : List String) (h : Heap), Evolves h (repairKeys h o ks path).1
  | [], h => evolves_refl h
  | k :: rest, h =>
    evolves_trans (repairProp_evolves h o k)
      (repairKeys_evolves o path rest (repairProp h o k).1)

theorem repairKeys_post (o : Nat) (path : List String) :
    ∀ (ks : List String) (h : Heap) (k : String), k ∈ ks →
      unrep (repairKeys h o ks path).1 o k
  | [], h, k, hk => absurd hk (List.not_mem_nil k)
  | k2 :: rest, h, k, hk => by
    rcases List.mem_cons.mp hk with h1 | h1
    · rw [h1]
      exact (repairKeys_evolves o path rest (repairProp h o k2).1).2 o k2
        (repairProp_post h o k2)
    · exact repairKeys_post o path rest (repairProp h o k2).1 k h1

theorem repairKeys_noop (o : Nat) (path : List String) :
    ∀ (ks : List String) (h : Heap), (∀ k ∈ ks, unrep h o k) →
      (repairKeys h o ks path).1 = h ∧
      ∀ e ∈ (repairKeys h o ks path).2, e.2 ≠ Res.repaired
  | [], h, _ => ⟨rfl, by simp [repairKeys]⟩
  | k :: rest, h, hall => by
    have hk := hall k (List.mem_cons_self k rest)
    have hnp := repairProp_noop h o k hk
    have ih := repairKeys_noop o path rest (repairProp h o k).1
      (fun k2 hk2 => by rw [hnp.1]; exact hall k2 (List.mem_cons_of_mem k hk2))
    constructor
    · show (repairKeys (repairProp h o k).1 o rest path).1 = h
      rw [ih.1, hnp.1]
    · intro e he
      have he2 : e ∈ (path ++ [k], (repairProp h o k).2) ::
          (repairKeys (repairProp h o k).1 o rest path).2 := he
      rcases List.mem_cons.mp he2 with h1 | h1
      · rw [h1]
        exact hnp.2
      · exact ih.2 e h1

theorem expandWildcard_evolves (s : RS) (o : Nat) (path : List String) :
    Evolves s.heap (expandWildcard s o path).heap := by
  unfold expandWildcard
  by_cases hv : o ∈ s.wvis
  · simp only [if_pos hv]
    exact evolves_refl _
  · simp only [if_neg hv]
    exact repairKeys_evolves o path (ownKeys s.heap o) s.heap

mutual
theorem planNode_evolves :
    ∀ (node : PolicyNode) (s : RS) (o : Nat) (k : String) (path : List String),
      Evolves s.heap (planNode s o k node path).heap
  | .skip, s, o, k, path => evolves_refl _
  | .repairLeaf, s, o, k, path => repairProp_evolves s.heap o k
  | .wildcardLeaf, s, o, k, path => by
    rw [planNode]
    cases lookupVal s.heap o k with
    | vobj o2 => exact expandWildcard_evolves s o2 (path ++ [k])
    | vundefined => exact evolves_refl _
    | vbool b => exact evolves_refl _
    | vstr s2 => exact evolves_refl _
  | .subtree m2, s, o, k, path => by
    rw [planNode]
    cases lookupVal s.heap o k with
    | vobj o2 =>
      dsimp only
      by_cases hv : (o2, path ++ [k]) ∈ s.svis
      · rw [if_pos hv]
        exact evolves_refl _
      · rw [if_neg hv]
        exact planMap_evolves m2
          { s with svis := (o2, path ++ [k]) :: s.svis } o2 (path ++ [k])
    | vundefined => exact evolves_refl _
    | vbool b => exact evolves_refl _
    | vstr s2 => exact evolves_refl _

theorem planMap_evolves :
    ∀ (m : PolicyMap) (s : RS) (o : Nat) (path : List String),
      Evolves s.heap (planMap s o m path).heap
  | .nil, s, _, _ => evolves_refl s.heap
  | .cons k child rest, s, o, path =>
    evolves_trans (planNode_evolves child s o k path)
      (planMap_evolves rest (planNode s o k child path) o path)
end

theorem expandWildcard_replay (s1 s2 : RS) (o : Nat) (path : List String)
    (hobs : ObsEquiv s1.heap s2.heap) (hw : s1.wvis = s2.wvis)
    (hs : s1.svis = s2.svis)
    (hh : ∀ a b, unrep (expandWildcard s1 o path).heap a b → unrep s2.heap a b) :
    StepOK s2 (expandWildcard s1 o path) (expandWildcard s2 o path) := by
  by_cases hv : o ∈ s1.wvis
  · have hv2 : o ∈ s2.wvis := hw ▸ hv
    unfold expandWildcard
    rw [if_pos hv, if_pos hv2]
    exact ⟨rfl, hw.symm, hs.symm, ⟨[], (List.append_nil _).symm, by simp⟩⟩
  · have hv2 : o ∉ s2.wvis := fun hx => hv (hw ▸ hx)
    have hh2 : ∀ a b,
        unrep (repairKeys s1.heap o (ownKeys s1.heap o) path).1 a b →
        unrep s2.heap a b := by
      intro a b hu
      apply hh a b
      unfold expandWildcard
      rw [if_neg hv]
      exact hu
    have hkeys : ownKeys s2.heap o = ownKeys s1.heap o := (hobs.2.2.1 o).symm
    have hall : ∀ k ∈ ownKeys s2.heap o, unrep s2.heap o k := by
      intro k hk
      rw [hkeys] at hk
      exact hh2 o k (repairKeys_post o path (ownKeys s1.heap o) s1.heap k hk)
    have hnoop := repairKeys_noop o path (ownKeys s2.heap o) s2.heap hall
    unfold expandWildcard
    rw [if_neg hv, if_neg hv2]
    refine ⟨hnoop.1, ?_, hs.symm,
      ⟨(repairKeys s2.heap o (ownKeys s2.heap o) path).2, rfl, hnoop.2⟩⟩
    rw [hw]

mutual
theorem planNode_replay :
    ∀ (node : PolicyNode) (s1 s2 : RS) (o : Nat) (k : String) (path : List String),
      ObsEquiv s1.heap s2.heap → s1.wvis = s2.wvis → s1.svis = s2.svis →
      (∀ a b, unrep (planNode s1 o k node path).heap a b → unrep s2.heap a b) →
      StepOK s2 (planNode s1 o k node path) (planNode s2 o k node path)
  | .skip, _, s2, _, _, _, _, hw, hs, _ =>
    ⟨rfl, hw.symm, hs.symm, ⟨[], (List.append_nil s2.outs).symm, by simp⟩⟩
  | .repairLeaf, s1, s2, o, k, path, _, hw, hs, hh => by
    have hu2 : unrep s2.heap o k := hh o k (repairProp_post s1.heap o k)
    have hnp := repairProp_noop s2.heap o k hu2
    refine ⟨hnp.1, hw.symm, hs.symm,
      ⟨[(path ++ [k], (repairProp s2.heap o k).2)], rfl, ?_⟩⟩
    intro e he
    rw [List.mem_singleton.mp he]
    exact hnp.2
  | .wildcardLeaf, s1, s2, o, k, path, hobs, hw, hs, hh => by
    rw [planNode, planNode, ← lookupVal_congr hobs o k]
    cases hl : lookupVal s1.heap o k with
    | vobj o2 =>
      dsimp only
      have hh2 : ∀ a b, unrep (expandWildcard s1 o2 (path ++ [k])).heap a b →
          unrep s2.heap a b := by
        intro a b hu
        apply hh a b
        rw [planNode, hl]
        exact hu
      exact expandWildcard_replay s1 s2 o2 (path ++ [k]) hobs hw hs hh2
    | vundefined =>
      exact ⟨rfl, hw.symm, hs.symm,
        ⟨[(path ++ [k], Res.rootAbsent)], rfl, by simp⟩⟩
    | vbool b =>
      exact ⟨rfl, hw.symm, hs.symm,
        ⟨[(path ++ [k], Res.rootAbsent)], rfl, by simp⟩⟩
    | vstr s3 =>
      exact ⟨rfl, hw.symm, hs.symm,
        ⟨[(path ++ [k], Res.rootAbsent)], rfl, by simp⟩⟩
  | .subtree m2, s1, s2, o, k, path, hobs, hw, hs, hh => by
    rw [planNode, planNode, ← lookupVal_congr hobs o k]
    cases hl : lookupVal s1.heap o k with
    | vobj o2 =>
      dsimp only
      by_cases hv : (o2, path ++ [k]) ∈ s1.svis
      · have hv2 : (o2, path ++ [k]) ∈ s2.svis := hs ▸ hv
        rw [if_pos hv, if_pos hv2]
        exact ⟨rfl, hw.symm, hs.symm, ⟨[], (List.append_nil s2.outs).symm, by simp⟩⟩
      · have hv2 : (o2, path ++ [k]) ∉ s2.svis := fun hx => hv (hs ▸ hx)
        rw [if_neg hv, if_neg hv2]
        have hh2 : ∀ a b,
            unrep (planMap { s1 with svis := (o2, path ++ [k]) :: s1.svis }
              o2 m2 (path ++ [k])).heap a b → unrep s2.heap a b := by
          intro a b hu
          apply hh a b
          rw [planNode, hl]
          dsimp only
          rw [if_neg hv]
          exact hu
        exact planMap_replay m2 { s1 with svis := (o2, path ++ [k]) :: s1.svis }
          { s2 with svis := (o2, path ++ [k]) :: s2.svis } o2 (path ++ [k])
          hobs hw (by rw [hs]) hh2
    | vundefined =>
      exact ⟨rfl, hw.symm, hs.symm,
        ⟨[(path ++ [k], Res.rootAbsent)], rfl, by simp⟩⟩
    | vbool b =>
      exact ⟨rfl, hw.symm, hs.symm,
        ⟨[(path ++ [k], Res.rootAbsent)], rfl, by simp⟩⟩
    | vstr s3 =>
      exact ⟨rfl, hw.symm, hs.symm,
        ⟨[(path ++ [k], Res.rootAbsent)], rfl, by simp⟩⟩

theorem planMap_replay :
    ∀ (m : PolicyMap) (s1 s2 : RS) (o : Nat) (path : List String),
      ObsEquiv s1.heap s2.heap → s1.wvis = s2.wvis → s1.svis = s2.svis →
      (∀ a b, unrep (planMap s1 o m path).heap a b → unrep s2.heap a b) →
      StepOK s2 (planMap s1 o m path) (planMap s2 o m path)
  | .nil, _, s2, _, _, _, hw, hs, _ =>
    ⟨rfl, hw.symm, hs.symm, ⟨[], (List.append_nil s2.outs).symm, by simp⟩⟩
  | .cons k child rest, s1, s2, o, path, hobs, hw, hs, hh => by
    show StepOK s2 (planMap (planNode s1 o k child path) o rest path)
      (planMap (planNode s2 o k child path) o rest path)
    have hhchild : ∀ a b, unrep (planNode s1 o k child path).heap a b →
        unrep s2.heap a b := fun a b hu =>
      hh a b ((planMap_evolves rest (planNode s1 o k child path) o path).2 a b hu)
    obtain ⟨hheap, hwv, hsv, extra1, houts, hex1⟩ :=
      planNode_replay child s1 s2 o k path hobs hw hs hhchild
    have hobs2 : ObsEquiv (planNode s1 o k child path).heap
        (planNode s2 o k child path).heap := by
      rw [hheap]
      exact obsEquiv_trans (obsEquiv_symm (planNode_evolves child s1 o k path).1) hobs
    have hh2 : ∀ a b,
        unrep (planMap (planNode s1 o k child path) o rest path).heap a b →
        unrep (planNode s2 o k child path).heap a b := by
      intro a b hu
      rw [hheap]
      exact hh a b hu
    obtain ⟨hheap2, hwv2, hsv2, extra2, houts2, hex2⟩ :=
      planMap_replay rest (planNode s1 o k child path)
        (planNode s2 o k child path) o path hobs2 hwv.symm hsv.symm hh2
    refine ⟨?_, hwv2, hsv2, ⟨extra1 ++ extra2, ?_, ?_⟩⟩
    · rw [hheap2, hheap]
    · rw [houts2, houts, List.append_assoc]
    · intro e he
      rcases List.mem_append.mp he with h1 | h1
      · exact hex1 e h1
      · exact hex2 e h1
end

theorem runIntr_evolves (s : RS) (cname iname : String) (node : PolicyNode)
    (v : Value) : Evolves s.heap (runIntr s cname iname node v).heap := by
  cases node with
  | skip => exact evolves_refl s.heap
  | repairLeaf => exact evolves_refl s.heap
  | wildcardLeaf =>
    cases v with
    | vobj o => exact expandWildcard_evolves s o [cname, iname]
    | vundefined => exact evolves_refl s.heap
    | vbool b => exact evolves_refl s.heap
    | vstr s2 => exact evolves_refl s.heap
  | subtree m2 =>
    cases v with
    | vobj o =>
      unfold runIntr
      dsimp only
      by_cases hv : (o, [cname, iname]) ∈ s.svis
      · rw [if_pos hv]
        exact evolves_refl s.heap
      · rw [if_neg hv]
        exact planMap_evolves m2
          { s with svis := (o, [cname, iname]) :: s.svis } o [cname, iname]
    | vundefined => exact evolves_refl s.heap
    | vbool b => exact evolves_refl s.heap
    | vstr s2 => exact evolves_refl s.heap

theorem runIntr_replay (s1 s2 : RS) (cname iname : String) (node : PolicyNode)
    (v : Value) (hobs : ObsEquiv s1.heap s2.heap) (hw : s1.wvis = s2.wvis)
    (hs : s1.svis = s2.svis)
    (hh : ∀ a b, unrep (runIntr s1 cname iname node v).heap a b →
      unrep s2.heap a b) :
    StepOK s2 (runIntr s1 cname iname node v) (runIntr s2 cname iname node v) := by
  cases node with
  | skip =>
    exact ⟨rfl, hw.symm, hs.symm, ⟨[], (List.append_nil s2.outs).symm, by simp⟩⟩
  | repairLeaf =>
    exact ⟨rfl, hw.symm, hs.symm, ⟨[], (List.append_nil s2.outs).symm, by simp⟩⟩
  | wildcardLeaf =>
    cases v with
    | vobj o =>
      exact expandWildcard_replay s1 s2 o [cname, iname] hobs hw hs
        (fun a b hu => hh a b hu)
    | vundefined =>
      exact ⟨rfl, hw.symm, hs.symm, ⟨[([cname, iname], Res.rootAbsent)], rfl, by simp⟩⟩
    | vbool b =>
      exact ⟨rfl, hw.symm, hs.symm, ⟨[([cname, iname], Res.rootAbsent)], rfl, by simp⟩⟩
    | vstr s3 =>
      exact ⟨rfl, hw.symm, hs.symm, ⟨[([cname, iname], Res.rootAbsent)], rfl, by simp⟩⟩
  | subtree m2 =>
    cases v with
    | vobj o =>
      unfold runIntr
      dsimp only
      by_cases hv : (o, [cname, iname]) ∈ s1.svis
      · have hv2 : (o, [cname, iname]) ∈ s2.svis := hs ▸ hv
        rw [if_pos hv, if_pos hv2]
        exact ⟨rfl, hw.symm, hs.symm, ⟨[], (List.append_nil s2.outs).symm, by simp⟩⟩
      · have hv2 : (o, [cname, iname]) ∉ s2.svis := fun hx => hv (hs ▸ hx)
        rw [if_neg hv, if_neg hv2]
        have hh2 : ∀ a b,
            unrep (planMap { s1 with svis := (o, [cname, iname]) :: s1.svis }
              o m2 [cname, iname]).heap a b → unrep s2.heap a b := by
          intro a b hu
          apply hh a b
          unfold runIntr
          dsimp only
          rw [if_neg hv]
          exact hu
        exact planMap_replay m2 { s1 with svis := (o, [cname, iname]) :: s1.svis }
          { s2 with svis := (o, [cname, iname]) :: s2.svis } o [cname, iname]
          hobs hw (by rw [hs]) hh2
    | vundefined =>
      exact ⟨rfl, hw.symm, hs.symm, ⟨[([cname, iname], Res.rootAbsent)], rfl, by simp⟩⟩
    | vbool b =>
      exact ⟨rfl, hw.symm, hs.symm, ⟨[([cname, iname], Res.rootAbsent)], rfl, by simp⟩⟩
    | vstr s3 =>
      exact ⟨rfl, hw.symm, hs.symm, ⟨[([cname, iname], Res.rootAbsent)], rfl, by simp⟩⟩

theorem runIntrs_evolves (cname : String) (rm : List (String × Value)) :
    ∀ (m : PolicyMap) (s : RS), Evolves s.heap (runIntrs s cname m rm).heap
  | .nil, s => evolves_refl s.heap
  | .cons iname node rest, s =>
    evolves_trans
      (runIntr_evolves s cname iname node ((assocLookup rm iname).getD .vundefined))
      (runIntrs_evolves cname rm rest
        (runIntr s cname iname node ((assocLookup rm iname).getD .vundefined)))

theorem runIntrs_replay (cname : String) (rm : List (String × Value)) :
    ∀ (m : PolicyMap) (s1 s2 : RS),
      ObsEquiv s1.heap s2.heap → s1.wvis = s2.wvis → s1.svis = s2.svis →
      (∀ a b, unrep (runIntrs s1 cname m rm).heap a b → unrep s2.heap a b) →
      StepOK s2 (runIntrs s1 cname m rm) (runIntrs s2 cname m rm)
  | .nil, _, s2, _, hw, hs, _ =>
    ⟨rfl, hw.symm, hs.symm, ⟨[], (List.append_nil s2.outs).symm, by simp⟩⟩
  | .cons iname node rest, s1, s2, hobs, hw, hs, hh => by
    show StepOK s2
      (runIntrs (runIntr s1 cname iname node ((assocLookup rm iname).getD .vundefined))
        cname rest rm)
      (runIntrs (runIntr s2 cname iname node ((assocLookup rm iname).getD .vundefined))
        cname rest rm)
    have hhchild : ∀ a b,
        unrep (runIntr s1 cname iname node
          ((assocLookup rm iname).getD .vundefined)).heap a b →
        unrep s2.heap a b := fun a b hu =>
      hh a b ((runIntrs_evolves cname rm rest
        (runIntr s1 cname iname node ((assocLookup rm iname).getD .vundefined))).2 a b hu)
    obtain ⟨hheap, hwv, hsv, extra1, houts, hex1⟩ :=
      runIntr_replay s1 s2 cname iname node ((assocLookup rm iname).getD .vundefined)
        hobs hw hs hhchild
    have hobs2 : ObsEquiv
        (runIntr s1 cname iname node ((assocLookup rm iname).getD .vundefined)).heap
        (runIntr s2 cname iname node ((assocLookup rm iname).getD .vundefined)).heap := by
      rw [hheap]
      exact obsEquiv_trans (obsEquiv_symm
        (runIntr_evolves s1 cname iname node
          ((assocLookup rm iname).getD .vundefined)).1) hobs
    have hh2 : ∀ a b,
        unrep (runIntrs (runIntr s1 cname iname node
          ((assocLookup rm iname).getD .vundefined)) cname rest rm).heap a b →
        unrep (runIntr s2 cname iname node
          ((assocLookup rm iname).getD .vundefined)).heap a b := by
      intro a b hu
      rw [hheap]
      exact hh a b hu
    obtain ⟨hheap2, hwv2, hsv2, extra2, houts2, hex2⟩ :=
      runIntrs_replay cname rm rest
        (runIntr s1 cname iname node ((assocLookup rm iname).getD .vundefined))
        (runIntr s2 cname iname node ((assocLookup rm iname).getD .vundefined))
        hobs2 hwv.symm hsv.symm hh2
    refine ⟨?_, hwv2, hsv2, ⟨extra1 ++ extra2, ?_, ?_⟩⟩
    · rw [hheap2, hheap]
    · rw [houts2, houts, List.append_assoc]
    · intro e he
      rcases List.mem_append.mp he with h1 | h1
      · exact hex1 e h1
      · exact hex2 e h1

theorem runCats_evolves (roots : RootMapping) :
    ∀ (cats : PolicyMap) (s : RS), Evolves s.heap (runCats s cats roots).heap
  | .nil, s => evolves_refl s.heap
  | .cons cname cpol rest, s => by
    cases cpol with
    | subtree intrs =>
      exact evolves_trans
        (runIntrs_evolves cname ((assocLookup roots cname).getD []) intrs s)
        (runCats_evolves roots rest
          (runIntrs s cname intrs ((assocLookup roots cname).getD [])))
    | repairLeaf => exact runCats_evolves roots rest s
    | wildcardLeaf => exact runCats_evolves roots rest s
    | skip => exact runCats_evolves roots rest s

theorem runCats_replay (roots : RootMapping) :
    ∀ (cats : PolicyMap) (s1 s2 : RS),
      ObsEquiv s1.heap s2.heap → s1.wvis = s2.wvis → s1.svis = s2.svis →
      (∀ a b, unrep (runCats s1 cats roots).heap a b → unrep s2.heap a b) →
      StepOK s2 (runCats s1 cats roots) (runCats s2 cats roots)
  | .nil, _, s2, _, hw, hs, _ =>
    ⟨rfl, hw.symm, hs.symm, ⟨[], (List.append_nil s2.outs).symm, by simp⟩⟩
  | .cons cname cpol rest, s1, s2, hobs, hw, hs, hh => by
    cases cpol with
    | subtree intrs =>
      show StepOK s2
        (runCats (runIntrs s1 cname intrs ((assocLookup roots cname).getD []))
          rest roots)
        (runCats (runIntrs s2 cname intrs ((assocLookup roots cname).getD []))
          rest roots)
      have hhchild : ∀ a b,
          unrep (runIntrs s1 cname intrs
            ((assocLookup roots cname).getD [])).heap a b →
          unrep s2.heap a b := fun a b hu =>
        hh a b ((runCats_evolves roots rest
          (runIntrs s1 cname intrs ((assocLookup roots cname).getD []))).2 a b hu)
      obtain ⟨hheap, hwv, hsv, extra1, houts, hex1⟩ :=
        runIntrs_replay cname ((assocLookup roots cname).getD []) intrs s1 s2
          hobs hw hs hhchild
      have hobs2 : ObsEquiv
          (runIntrs s1 cname intrs ((assocLookup roots cname).getD [])).heap
          (runIntrs s2 cname intrs ((assocLookup roots cname).getD [])).heap := by
        rw [hheap]
        exact obsEquiv_trans (obsEquiv_symm
          (runIntrs_evolves cname ((assocLookup roots cname).getD []) intrs s1).1)
          hobs
      have hh2 : ∀ a b,
          unrep (runCats (runIntrs s1 cname intrs
            ((assocLookup roots cname).getD [])) rest roots).heap a b →
          unrep (runIntrs s2 cname intrs
            ((assocLookup roots cname).getD [])).heap a b := by
        intro a b hu
        rw [hheap]
        exact hh a b hu
      obtain ⟨hheap2, hwv2, hsv2, extra2, houts2, hex2⟩ :=
        runCats_replay roots rest
          (runIntrs s1 cname intrs ((assocLookup roots cname).getD []))
          (runIntrs s2 cname intrs ((assocLookup roots cname).getD []))
          hobs2 hwv.symm hsv.symm hh2
      refine ⟨?_, hwv2, hsv2, ⟨extra1 ++ extra2, ?_, ?_⟩⟩
      · rw [hheap2, hheap]
      · rw [houts2, houts, List.append_assoc]
      · intro e he
        rcases List.mem_append.mp he with h1 | h1
        · exact hex1 e h1
        · exact hex2 e h1
    | repairLeaf => exact runCats_replay roots rest s1 s2 hobs hw hs hh
    | wildcardLeaf => exact runCats_replay roots rest s1 s2 hobs hw hs hh
    | skip => exact runCats_replay roots rest s1 s2 hobs hw hs hh

/-- C1: every value reachable in the exported policy tree is one of
exactly four shapes: a nested record of named nodes, the boolean
`true`, the string `"*"`, or a falsy value.  No node of the exported
table is a number, a non-wildcard non-empty string, or an array. -/
theorem c1_exported_policy_shapes :
    isPolicyShape dataPropertiesToRepair = true := by rfl

/-- C2: the top level of the exported policy tree has exactly the two
keys `namedIntrinsics` and `anonIntrinsics`, in that order, and the
value of each is a record mapping intrinsic names to policy nodes. -/
theorem c2_top_level_categories :
    keysOf dataPropertiesToRepair = ["namedIntrinsics", "anonIntrinsics"] ∧
    isRecordOfPolicyNodes (getKey dataPropertiesToRepair "namedIntrinsics") = true ∧
    isRecordOfPolicyNodes (getKey dataPropertiesToRepair "anonIntrinsics") = true :=
  ⟨rfl, rfl, rfl⟩

/-- C3: the exported policy tree is a finite tree; acyclicity is
witnessed by the fact that the object literal embeds as a term of the
inductive (hence well-founded) type `JsVal`, and every path from the
root reaches, after at most 4 keys, a leaf that is the boolean `true`
or the wildcard string `"*"` (the table contains exactly 24 leaves,
all of those two forms). -/
theorem c3_policy_finite_tree :
    (leafPaths dataPropertiesToRepair).all
      (fun p => (isTrueLeaf p.2 || isWildcardLeaf p.2) &&
        decide (p.1.length ≤ 4)) = true ∧
    (leafPaths dataPropertiesToRepair).length = 24 :=
  ⟨rfl, rfl⟩

/-- C5 counterexample: the claim asserts that the keys of
`namedIntrinsics` are exactly `Object`, `Array`, `Function`, `Error`,
the error subtypes, and `Promise`; but `RangeError` is an error
subtype and is not a key of `namedIntrinsics` (the table lists only
`TypeError` among the error subtypes). -/
theorem c5_counterexample :
    claimedNamedIntrinsicKeys.contains "RangeError" = true ∧
    (keysOf namedIntrinsicsPart).contains "RangeError" = false :=
  ⟨rfl, rfl⟩

/-- C5 amended: the keys of the `namedIntrinsics` category are exactly
`Object`, `Array`, `Function`, `Error`, `TypeError` and `Promise` —
of the error subtypes only `TypeError` appears — and every key is the
name of a global binding, none being an anonymous intrinsic. -/
theorem c5_named_keys_amended :
    keysOf namedIntrinsicsPart =
      ["Object", "Array", "Function", "Error", "TypeError", "Promise"] ∧
    (keysOf namedIntrinsicsPart).all
      (fun k => globalBindingNames.contains k) = true ∧
    (keysOf namedIntrinsicsPart).all
      (fun k => !anonIntrinsicNames.contains k) = true :=
  ⟨rfl, rfl, rfl⟩

/-- C6: the keys of the `anonIntrinsics` category are exactly
`TypedArray`, `GeneratorFunction`, `AsyncFunction`,
`AsyncGeneratorFunction` and `IteratorPrototype`, and none of these
names also appears as a key of `namedIntrinsics`. -/
theorem c6_anon_keys :
    keysOf anonIntrinsicsPart =
      ["TypedArray", "GeneratorFunction", "AsyncFunction",
       "AsyncGeneratorFunction", "IteratorPrototype"] ∧
    (keysOf anonIntrinsicsPart).all
      (fun k => !(keysOf namedIntrinsicsPart).contains k) = true :=
  ⟨rfl, rfl⟩

/-- C8: the wildcard leaf `"*"` occurs at exactly four positions of
the exported table — `namedIntrinsics.Object.prototype`,
`namedIntrinsics.Array.prototype`, `anonIntrinsics.TypedArray.prototype`
and `anonIntrinsics.IteratorPrototype` — and every other leaf is the
boolean `true`. -/
theorem c8_wildcard_positions :
    ((leafPaths dataPropertiesToRepair).filter
      (fun p => isWildcardLeaf p.2)).map Prod.fst =
      [["namedIntrinsics", "Object", "prototype"],
       ["namedIntrinsics", "Array", "prototype"],
       ["anonIntrinsics", "TypedArray", "prototype"],
       ["anonIntrinsics", "IteratorPrototype"]] ∧
    (leafPaths dataPropertiesToRepair).all
      (fun p => isWildcardLeaf p.2 || isTrueLeaf p.2) = true :=
  ⟨rfl, rfl⟩

/-- C9: every boolean `true` repair leaf of the exported table sits in
a record that is the value of a key named `prototype`: the
second-to-last key of its path is always `prototype`, so the table
never designates a property held directly on a constructor or on a
top-level intrinsic record. -/
theorem c9_true_leaves_under_prototype :
    (leafPaths dataPropertiesToRepair).all
      (fun p => !isTrueLeaf p.2 ||
        decide ((p.1.reverse.drop 1).head? = some "prototype")) = true :=
  rfl

/-- C10: every path from the root of the exported table to a leaf
traverses at least 2 and at most 4 keys, and both bounds are
attained. -/
theorem c10_depth_bounds :
    (leafPaths dataPropertiesToRepair).all
      (fun p => decide (2 ≤ p.1.length) && decide (p.1.length ≤ 4)) = true ∧
    (leafPaths dataPropertiesToRepair).any
      (fun p => decide (p.1.length = 2)) = true ∧
    (leafPaths dataPropertiesToRepair).any
      (fun p => decide (p.1.length = 4)) = true :=
  ⟨rfl, rfl, rfl⟩

/-- C4: the path namedIntrinsics, Error, prototype, message in the
exported table yields the repair leaf `true`; accordingly the engine,
run with this very table against a root mapping resolving `Error` to a
constructor whose prototype carries the data property `message`,
converts that property to an accessor keeping its default `""` and its
enumerability, reports `repaired` at exactly that path, and repairs no
other property. -/
theorem c4_error_prototype_message :
    lookupPath dataPropertiesToRepair
      ["namedIntrinsics", "Error", "prototype", "message"] =
      some (JsVal.jbool true) ∧
    hGetOwn (runRepair errDemoHeap (toPolicy dataPropertiesToRepair)
        errDemoRoots).1 1 "message" =
      some (.accessorD (.vstr "") false true) ∧
    ((runRepair errDemoHeap (toPolicy dataPropertiesToRepair)
        errDemoRoots).2.filter (fun pr => pr.2 == Res.repaired)).map Prod.fst =
      [["namedIntrinsics", "Error", "prototype", "message"]] :=
  ⟨rfl, rfl, rfl⟩

/-- C7 counterexample: with a non-configurable data property designated
for repair, the second run of the repair pass reports
`nonConfigurable`, which is none of `alreadyAccessor`, `rootAbsent`,
`propertyAbsent`; so the claim that every outcome of the second run is
one of those three fails at this concrete root mapping and policy
tree. -/
theorem c7_counterexample :
    ((runRepair (runRepair ceHeap cePolicy ceRoots).1 cePolicy ceRoots).2.all
      (fun pr => pr.2 == Res.alreadyAccessor || pr.2 == Res.rootAbsent ||
        pr.2 == Res.propertyAbsent)) = false ∧
    ((runRepair (runRepair ceHeap cePolicy ceRoots).1 cePolicy
        ceRoots).2.map Prod.snd) = [Res.nonConfigurable] :=
  ⟨rfl, rfl⟩

/-- C7 amended: for every heap, policy tree and root mapping, running
the repair pass twice produces the same final property descriptors as
running it once, and every outcome of the second run is
`alreadyAccessor`, `rootAbsent`, `propertyAbsent` or `nonConfigurable`
— in particular no property ever yields `repaired` twice. -/
theorem c7_idempotent_amended (h : Heap) (p : PolicyNode) (roots : RootMapping) :
    (runRepair (runRepair h p roots).1 p roots).1 = (runRepair h p roots).1 ∧
    ((runRepair (runRepair h p roots).1 p roots).2.all
      (fun pr => pr.2 == Res.alreadyAccessor || pr.2 == Res.rootAbsent ||
        pr.2 == Res.propertyAbsent || pr.2 == Res.nonConfigurable)) = true := by
  cases p with
  | skip => exact ⟨rfl, rfl⟩
  | repairLeaf => exact ⟨rfl, rfl⟩
  | wildcardLeaf => exact ⟨rfl, rfl⟩
  | subtree cats =>
    obtain ⟨hheap, hwv, hsv, extra, houts, hex⟩ :=
      runCats_replay roots cats (initRS h)
        (initRS (runCats (initRS h) cats roots).heap)
        (runCats_evolves roots cats (initRS h)).1
        rfl rfl (fun a b hu => hu)
    refine ⟨hheap, ?_⟩
    have hall : ((runCats (initRS (runCats (initRS h) cats roots).heap)
        cats roots).outs).all
        (fun pr => pr.2 == Res.alreadyAccessor || pr.2 == Res.rootAbsent ||
          pr.2 == Res.propertyAbsent || pr.2 == Res.nonConfigurable) = true := by
      rw [houts, List.all_eq_true]
      intro pr hpr
      have hmem : pr ∈ extra := by
        rcases List.mem_append.mp hpr with h1 | h1
        · simp [initRS] at h1
        · exact h1
      have hne : pr.2 ≠ Res.repaired := hex pr hmem
      cases hr : pr.2 with
      | repaired => exact absurd hr hne
      | alreadyAccessor => rfl
      | propertyAbsent => rfl
      | nonConfigurable => rfl
      | rootAbsent => rfl
    exact hall

end SES
